import Mathlib

/-!
Verification development for the FreeCarnival install engine core
(src/src/utils.rs). The Rust functions are shallowly embedded as pure
Lean functions: CSV streams become lists of parsed records, the
filesystem becomes an association list from paths to entries, the
tokio writer task becomes a recursive state-transition function over
an explicit arrival order, and the semaphore discipline of the build
pipeline becomes a small labelled transition system. SHA-256 (the
external sha2 collaborator) is kept abstract as a parameter
`s256 : Bytes → String`; the engine only ever compares its output for
equality.
-/

namespace FreeCarnival

/-- A byte buffer (chunk contents, file contents), modelled as a list of byte values. -/
abbrev Bytes := List Nat

/-- Tag column of a delta-manifest row (enum ChangeTag, src/src/utils.rs lines 576-581). -/
inductive ChangeTag where
  | Added
  | Modified
  | Removed
deriving DecidableEq

/-- Modelled from the spec: struct BuildManifestRecord lives in crate::api::product,
which is not under src/. Fields per spec section 3 (FileRecord): file_name, sha,
flags, size_in_bytes, chunks, and the optional delta tag. -/
structure BuildManifestRecord where
  file_name : String
  sha : String
  flags : Nat
  size_in_bytes : Nat
  chunks : Nat
  tag : Option ChangeTag
deriving DecidableEq

/-- Modelled from the spec: is_directory holds exactly when flags == 40 (spec section 3). -/
def BuildManifestRecord.is_directory (r : BuildManifestRecord) : Bool := r.flags == 40

/-- Modelled from the spec: a record is empty when it has zero chunks
(spec section 4.D, "directories or empty (zero chunks)"). -/
def BuildManifestRecord.is_empty (r : BuildManifestRecord) : Bool := r.chunks == 0

/-- Modelled from the spec: struct BuildManifestChunksRecord (crate::api::product):
sha, file_path, id (spec section 3, ChunkRecord). -/
structure BuildManifestChunksRecord where
  sha : String
  file_path : String
  id : Nat
deriving DecidableEq

/-- Functional-update helper standing for the Rust struct-update syntax
that replaces only the tag field. -/
def set_tag (r : BuildManifestRecord) (t : Option ChangeTag) : BuildManifestRecord :=
  ⟨r.file_name, r.sha, r.flags, r.size_in_bytes, r.chunks, t⟩

/-! ## Delta synthesizer (read_or_generate_delta_manifest, utils.rs lines 583-677)

Only the generation path is modelled; the store read/write round trip is
external IO. The CSV writer accumulating serialized rows becomes a foldl
that appends to a list. -/

/-- Generation path of read_or_generate_delta_manifest: one pass over the new
manifest emitting Added (name absent from old) or Modified (first old record
with the same name has a different sha), then one pass over the old manifest
emitting Removed (name absent from new). -/
def read_or_generate_delta_manifest (old new : List BuildManifestRecord) :
    List BuildManifestRecord :=
  old.foldl (fun acc oe =>
    if ! new.any (fun e => e.file_name == oe.file_name) then
      acc ++ [set_tag oe (some ChangeTag.Removed)]
    else acc)
    (new.foldl (fun acc ne =>
      if ! old.any (fun e => e.file_name == ne.file_name) then
        acc ++ [set_tag ne (some ChangeTag.Added)]
      else
        match old.find? (fun e => e.file_name == ne.file_name) with
        | some oe =>
          if oe.sha != ne.sha then acc ++ [set_tag ne (some ChangeTag.Modified)] else acc
        | none => acc) [])

/-- Per-record classification of a new-manifest record, written from the code's
single new-pass body: Added when the name is absent from old, Modified when the
first old record with the same name has a different sha, otherwise dropped. -/
def classify_new (old : List BuildManifestRecord) (ne : BuildManifestRecord) :
    Option BuildManifestRecord :=
  if ! old.any (fun e => e.file_name == ne.file_name) then
    some (set_tag ne (some ChangeTag.Added))
  else
    match old.find? (fun e => e.file_name == ne.file_name) with
    | some oe =>
      if oe.sha != ne.sha then some (set_tag ne (some ChangeTag.Modified)) else none
    | none => none

/-- The Removed rows: old records whose file_name is absent from new, in old order. -/
def removed_rows (old new : List BuildManifestRecord) : List BuildManifestRecord :=
  (old.filter (fun oe => ! new.any (fun e => e.file_name == oe.file_name))).map
    (fun oe => set_tag oe (some ChangeTag.Removed))

/-- The delta-manifest order exactly as claim C2 states it: first every Added row
(new records absent from old, in new order), then every Modified row (new records
whose name exists in old with a different sha, in new order), then the Removed
rows. Written from the claim's words, for comparison with the code embedding. -/
def claimed_delta_manifest (old new : List BuildManifestRecord) :
    List BuildManifestRecord :=
  (new.filter (fun ne => ! old.any (fun e => e.file_name == ne.file_name))).map
      (fun ne => set_tag ne (some ChangeTag.Added))
    ++ (new.filter (fun ne =>
          old.any (fun oe => oe.file_name == ne.file_name && oe.sha != ne.sha))).map
      (fun ne => set_tag ne (some ChangeTag.Modified))
    ++ removed_rows old new

/-! ## Delta chunks pass (read_or_generate_delta_chunks_manifest, utils.rs lines 679-763) -/

/-- The inner while loop that advances the cursor past directory or empty
entries. When the delta record stream is exhausted the Rust loop breaks with
the cursor unchanged (still a directory/empty record); with an empty stream
both the skipping and non-skipping cases leave (cf, []), so the empty case is
merged. -/
def skip_cursor : BuildManifestRecord → List BuildManifestRecord →
    BuildManifestRecord × List BuildManifestRecord
  | cf, [] => (cf, [])
  | cf, f :: rest2 =>
    if cf.is_directory || cf.is_empty then skip_cursor f rest2 else (cf, f :: rest2)

/-- The for loop over the new chunk manifest: break at a Removed cursor, skip
directory/empty cursor entries, drop chunks whose file_path differs from the
cursor's file_name, emit matching chunks, and advance the cursor when
chunk.id + 1 equals the cursor's chunk count (breaking when the delta stream
is exhausted right after an advance). -/
def delta_chunks_loop : BuildManifestRecord → List BuildManifestRecord →
    List BuildManifestChunksRecord → List BuildManifestChunksRecord
  | _, _, [] => []
  | cf, rest, c :: cs =>
    if cf.tag = some ChangeTag.Removed then []
    else
      let s := skip_cursor cf rest
      if c.file_path ≠ s.1.file_name then delta_chunks_loop s.1 s.2 cs
      else
        c :: (if c.id + 1 = s.1.chunks then
                match s.2 with
                | f :: rest2 => delta_chunks_loop f rest2 cs
                | [] => []
              else delta_chunks_loop s.1 s.2 cs)

/-- Generation path of read_or_generate_delta_chunks_manifest. The first cursor
read unwraps delta_manifest.next() with expect, so an empty delta manifest
panics; the panic is modelled as none. -/
def read_or_generate_delta_chunks_manifest (delta : List BuildManifestRecord)
    (new_chunks : List BuildManifestChunksRecord) :
    Option (List BuildManifestChunksRecord) :=
  match delta with
  | [] => none
  | f :: rest => some (delta_chunks_loop f rest new_chunks)

/-! ## Filesystem model and the layout loop (build_from_manifest lines 859-904,
prepare_file lines 1084-1126)

Paths are kept as the raw manifest file_name strings (install_path and the
host-separator translation are a constant prefix applied uniformly by
OsPath::join). The filesystem is an association list from path to entry. -/

/-- A filesystem entry: a directory or a regular file with contents. -/
inductive FsEntry where
  | dir
  | file (contents : Bytes)
deriving DecidableEq

/-- The install tree: association list from path to entry. -/
abbrev Fs := List (String × FsEntry)

def fs_lookup (p : String) : Fs → Option FsEntry
  | [] => none
  | (q, e) :: rest => if q == p then some e else fs_lookup p rest

def path_exists (p : String) (fs : Fs) : Bool := (fs_lookup p fs).isSome

/-- Creating (or truncating) an entry replaces any existing binding for the path. -/
def fs_insert (p : String) (e : FsEntry) (fs : Fs) : Fs :=
  (p, e) :: fs.filter (fun x => x.1 != p)

/-- tokio::fs::remove_file: drops the binding for the path. -/
def remove_file (p : String) (fs : Fs) : Fs := fs.filter (fun x => x.1 != p)

/-- tokio::fs::remove_dir_all: drops the path and everything below it
(paths using the backslash separators the vendor delivers). -/
def remove_dir_all (p : String) (fs : Fs) : Fs :=
  fs.filter (fun x => ! (x.1 == p || (p ++ "\\").isPrefixOf x.1))

/-- prepare_file (utils.rs lines 1084-1126), minus the macOS plist side channel:
a directory is created when missing; a regular file is created empty, truncating
prior contents; File::create over an existing directory fails with an IO error. -/
def prepare_file (file_name : String) (is_directory : Bool) (fs : Fs) :
    Except String Fs :=
  if is_directory then
    if path_exists file_name fs then Except.ok fs
    else Except.ok (fs_insert file_name FsEntry.dir fs)
  else
    match fs_lookup file_name fs with
    | some FsEntry.dir => Except.error "failed to create file"
    | _ => Except.ok (fs_insert file_name (FsEntry.file []) fs)

/-- The guarded directory removal of the layout loop: remove_dir_all only when
the path exists and is a directory on disk. -/
def remove_dir_entry (p : String) (fs : Fs) : Fs :=
  if fs_lookup p fs = some FsEntry.dir then remove_dir_all p fs else fs

/-- The guarded file removal of the layout loop: remove_file only when the path
exists and is a regular file on disk. -/
def remove_file_entry (p : String) (fs : Fs) : Fs :=
  match fs_lookup p fs with
  | some (FsEntry.file _) => remove_file p fs
  | _ => fs

/-- One iteration of the layout loop of build_from_manifest (lines 859-904).
Note the Rust code ends the is_directory branch with an unconditional continue,
so a tagged directory record is never passed to prepare_file. -/
def layout_step (fs : Fs) (r : BuildManifestRecord) : Except String Fs :=
  if r.tag = some ChangeTag.Modified ∨ r.tag = some ChangeTag.Removed then
    if r.is_directory then Except.ok (remove_dir_entry r.file_name fs)
    else if r.tag = some ChangeTag.Removed then
      Except.ok (remove_file_entry r.file_name fs)
    else prepare_file r.file_name r.is_directory (remove_file_entry r.file_name fs)
  else prepare_file r.file_name r.is_directory fs

/-- One layout iteration as claim C6 states it: removal for Modified/Removed,
processing stops only for Removed, and every record not stopped at is prepared.
Written from the claim's words, for comparison with layout_step. -/
def claimed_layout_step (fs : Fs) (r : BuildManifestRecord) : Except String Fs :=
  if r.tag = some ChangeTag.Modified ∨ r.tag = some ChangeTag.Removed then
    if r.tag = some ChangeTag.Removed then
      Except.ok (if r.is_directory then remove_dir_entry r.file_name fs
                 else remove_file_entry r.file_name fs)
    else prepare_file r.file_name r.is_directory
      (if r.is_directory then remove_dir_entry r.file_name fs
       else remove_file_entry r.file_name fs)
  else prepare_file r.file_name r.is_directory fs

/-- The whole layout loop over a manifest, an IO error aborting the build. -/
def layout_run (fs : Fs) : List BuildManifestRecord → Except String Fs
  | [] => Except.ok fs
  | r :: rest =>
    match layout_step fs r with
    | Except.ok fs2 => layout_run fs2 rest
    | Except.error e => Except.error e

/-! ## Verifier (verify, utils.rs lines 449-492; verify_file_hash lines 1128-1136) -/

/-- verify_file_hash: open the file, stream it through SHA-256, compare lowercase
hex. Opening or reading a missing path or a directory fails (modelled as none). -/
def verify_file_hash (s256 : Bytes → String) (fs : Fs) (p : String) (sha : String) :
    Option Bool :=
  match fs_lookup p fs with
  | some (FsEntry.file c) => some (s256 c == sha)
  | _ => none

/-- The spawned hashing task: an Err from verify_file_hash is logged and counts
as a failed verification. -/
def verify_task (s256 : Bytes → String) (fs : Fs) (p : String) (sha : String) : Bool :=
  match verify_file_hash s256 fs p sha with
  | some b => b
  | none => false

/-- The record loop of verify: skip directories, return early (none) when a file
is missing, otherwise collect each hashing task's result. -/
def verify_collect (s256 : Bytes → String) (fs : Fs) :
    List BuildManifestRecord → Option (List Bool)
  | [] => some []
  | r :: rest =>
    if r.is_directory then verify_collect s256 fs rest
    else if ! path_exists r.file_name fs then none
    else
      match verify_collect s256 fs rest with
      | some bs => some (verify_task s256 fs r.file_name r.sha :: bs)
      | none => none

/-- verify: false on an early missing-file return, otherwise the conjunction of
all hashing task results. -/
def verify (s256 : Bytes → String) (fs : Fs) (manifest : List BuildManifestRecord) :
    Bool :=
  match verify_collect s256 fs manifest with
  | none => false
  | some bs => bs.all (fun b => b)

/-! ## Build pipeline writer (build_from_manifest, utils.rs lines 918-1008)

The writer task is embedded as a recursive function over an explicit arrival
order: the list of (record, bytes) messages in the order the writer receives
them from the channel. The in_buffer HashMap is an association list keyed by
the chunk key string, the open-file HashMap is the list of open paths, and an
append trace records each append_chunk call. -/

/-- The chunk key "<id>,<sha>" (utils.rs line 957). -/
def chunk_key (id : Nat) (sha : String) : String := toString id ++ "," ++ sha

/-- Chunk key of a chunk record. -/
def key_of (r : BuildManifestChunksRecord) : String := chunk_key r.id r.sha

/-- An expected-order queue entry: (sha, id, is_last_for_file), utils.rs line 930. -/
abbrev QEntry := String × Nat × Bool

/-- The in_buffer map: chunk key to (file_path, bytes). The memory permit that
travels with the message is tracked by the pipeline transition system below. -/
abbrev Buffer := List (String × String × Bytes)

def buf_lookup (k : String) : Buffer → Option (String × Bytes)
  | [] => none
  | e :: rest => if e.1 == k then some e.2 else buf_lookup k rest

def buf_remove (k : String) (b : Buffer) : Buffer := b.filter (fun e => e.1 != k)

/-- HashMap::insert semantics: the new binding replaces any existing one. -/
def buf_insert (k fp : String) (bts : Bytes) (b : Buffer) : Buffer :=
  (k, fp, bts) :: buf_remove k b

/-- One recorded append_chunk call: which file got which chunk's bytes. -/
structure AppendEv where
  file_path : String
  sha : String
  id : Nat
  bytes : Bytes
deriving DecidableEq

/-- Writer-task state: remaining expected-order queue, in_buffer, open file
paths, and the append trace so far. -/
structure WriterSt where
  queue : List QEntry
  buffer : Buffer
  files : List String
  trace : List AppendEv
deriving DecidableEq

/-- The inner writer loop (utils.rs lines 960-1005): while the head of the
expected-order queue is present in in_buffer, remove it, open the file if
needed, append the bytes, and pop the queue; break when the head is absent;
return when the queue empties. -/
def drain : List QEntry → Buffer → List String → List AppendEv → WriterSt
  | [], buf, fm, out => ⟨[], buf, fm, out⟩
  | (sha, id, last) :: qrest, buf, fm, out =>
    match buf_lookup (chunk_key id sha) buf with
    | some (fp, bts) =>
      drain qrest (buf_remove (chunk_key id sha) buf)
        (if last then (if fp ∈ fm then fm else fm ++ [fp]).filter (fun x => x != fp)
         else (if fp ∈ fm then fm else fm ++ [fp]))
        (out ++ [⟨fp, sha, id, bts⟩])
    | none => ⟨(sha, id, last) :: qrest, buf, fm, out⟩

/-- The outer writer loop (utils.rs lines 946-1006): while the queue is
nonempty, receive one message (next arrival; an exhausted arrival list is the
closed channel), insert it into in_buffer under its chunk key, and drain. -/
def run_writer : List QEntry → Buffer → List String → List AppendEv →
    List (BuildManifestChunksRecord × Bytes) → WriterSt
  | queue, buf, fm, out, [] => ⟨queue, buf, fm, out⟩
  | queue, buf, fm, out, (r, bts) :: rest =>
    match queue with
    | [] => ⟨[], buf, fm, out⟩
    | q0 :: qt =>
      let st := drain (q0 :: qt)
        (buf_insert (chunk_key r.id r.sha) r.file_path bts buf) fm out
      run_writer st.queue st.buffer st.files st.trace rest

def assoc_find (k : String) : List (String × Nat) → Option Nat
  | [] => none
  | e :: rest => if e.1 == k then some e.2 else assoc_find k rest

def assoc_remove (k : String) (m : List (String × Nat)) : List (String × Nat) :=
  m.filter (fun e => e.1 != k)

/-- Seeding of the expected-order queue from the chunk manifest (utils.rs lines
918-933): look the file up in the chunk-count map recorded by the layout loop,
mark the chunk as last when its id is chunks - 1 (Nat subtraction models the
usize arithmetic), and drop the map entry for a finished file. A missing map
entry panics in Rust (indexing), modelled as none. -/
def build_write_queue : List (String × Nat) → List BuildManifestChunksRecord →
    Option (List QEntry)
  | _, [] => some []
  | m, r :: rest =>
    match assoc_find r.file_path m with
    | none => none
    | some n =>
      match build_write_queue
          (if n - 1 == r.id then assoc_remove r.file_path m else m) rest with
      | some q => some ((r.sha, r.id, n - 1 == r.id) :: q)
      | none => none

/-- The map from file name to expected chunk count recorded by the layout loop
for non-directory records (utils.rs lines 900-903). -/
def layout_chunk_map (manifest : List BuildManifestRecord) : List (String × Nat) :=
  (manifest.filter (fun r => ! r.is_directory)).map (fun r => (r.file_name, r.chunks))

/-- Value part a correctly delivered chunk record contributes to in_buffer,
byte assignment B standing for the downloaded contents. -/
def buf_entry (B : BuildManifestChunksRecord → Bytes) (r : BuildManifestChunksRecord) :
    String × String × Bytes :=
  (key_of r, r.file_path, B r)

/-- The append event the writer performs for a chunk record. -/
def append_ev (B : BuildManifestChunksRecord → Bytes) (r : BuildManifestChunksRecord) :
    AppendEv :=
  ⟨r.file_path, r.sha, r.id, B r⟩

/-- build_from_manifest reaches Ok(true) unconditionally once the write loop
has finished (utils.rs line 1070); the writer's final state is paired with the
returned boolean. -/
def build_from_manifest_run (queue : List QEntry)
    (arrivals : List (BuildManifestChunksRecord × Bytes)) : WriterSt × Bool :=
  (run_writer queue [] [] [] arrivals, true)

/-- The two install outcomes of the match on build_from_manifest's result
(utils.rs lines 132-143). -/
inductive InstallResult where
  | success
  | chunksFailedVerification
deriving DecidableEq

/-- install's match on the boolean returned by build_from_manifest. -/
def install_outcome (build_result : Bool) : InstallResult :=
  if build_result then InstallResult.success
  else InstallResult.chunksFailedVerification

/-! ## Download-task verification (utils.rs lines 1033-1057, verify_chunk 1138-1145) -/

/-- Rust str::split on a single '_' pattern: the list of separated pieces,
never empty (an input without '_' yields the one-element list of itself). -/
def split_on_underscore : List Char → List (List Char)
  | [] => [[]]
  | c :: rest =>
    if c = '_' then [] :: split_on_underscore rest
    else
      match split_on_underscore rest with
      | [] => [[c]]
      | s :: ss => (c :: s) :: ss

/-- verify_chunk: hash the chunk bytes and compare the lowercase hex to the
candidate sha (hashing abstracted as s256). -/
def verify_chunk (s256 : Bytes → String) (chunk : Bytes) (sha : String) : Bool :=
  s256 chunk == sha

/-- Whether the download task sends its chunk to the writer (true) or abandons
it (false): unless skip_verify, split the sha on '_' and check the hash against
the last token; a missing last token skips verification and still sends. -/
def download_task_sends (skip_verify : Bool) (s256 : Bytes → String)
    (record : BuildManifestChunksRecord) (chunk : Bytes) : Bool :=
  if skip_verify then true
  else
    match (split_on_underscore record.sha.data).getLast? with
    | some chunk_sha =>
      if verify_chunk s256 chunk (String.mk chunk_sha) = false then false else true
    | none => true

/-! ## update info-only size estimates (utils.rs lines 258-310)

The f64 accumulation of u64 sizes is modelled with exact arithmetic (Nat sums,
Int difference); the claims are about which entries are summed and about the
sign rendering, not about float rounding. human_bytes is an external formatter
and stays out of the model: the rendered value is the sign string and the
absolute magnitude passed to it. -/

/-- Download size: fold over the delta manifest skipping Removed entries. -/
def update_info_download_size (delta : List BuildManifestRecord) : Nat :=
  delta.foldl (fun acc r =>
    match r.tag with
    | some ChangeTag.Removed => acc
    | _ => acc + r.size_in_bytes) 0

/-- Disk size of a manifest: fold summing size_in_bytes over every record. -/
def manifest_disk_size (m : List BuildManifestRecord) : Nat :=
  m.foldl (fun acc r => acc + r.size_in_bytes) 0

/-- needed_space = disk_size(new) - disk_size(old), a signed quantity. -/
def update_needed_space (old new : List BuildManifestRecord) : Int :=
  (manifest_disk_size new : Int) - (manifest_disk_size old : Int)

/-- The rendering of needed space: a "-" sign exactly when negative, and the
absolute value handed to human_bytes. -/
def render_needed_space (n : Int) : String × Int :=
  (if n < 0 then "-" else "", if n < 0 then -n else n)

/-! ## Memory-permit discipline of the build pipeline (utils.rs lines 1011-1059
and the writer's drop(permit) at line 981)

The concurrency of the pipeline is modelled as a labelled transition system
over per-chunk phases. A chunk's permit is acquired before its download task is
spawned (acquire), its bytes materialize in memory when the download completes
(downloaded), and the permit is dropped either when the writer appends the
bytes (write) or when the task abandons a chunk that failed verification and
returns before sending (abandon) - the captured permit is dropped with the
task's scope in that case. The semaphore admits an acquire only while fewer
than cap permits are outstanding. -/

inductive ChunkPhase where
  | notStarted
  | permitted
  | inMemory
  | written
  | abandoned
deriving DecidableEq

inductive PipeEvent where
  | acquire (i : Nat)
  | downloaded (i : Nat)
  | write (i : Nat)
  | abandon (i : Nat)
deriving DecidableEq

/-- Number of chunks currently in the given phase. -/
def count_phase (s : List ChunkPhase) (p : ChunkPhase) : Nat :=
  (s.filter (fun x => x == p)).length

/-- Outstanding memory permits: chunks that have acquired and not yet released. -/
def permits_held (s : List ChunkPhase) : Nat :=
  count_phase s ChunkPhase.permitted + count_phase s ChunkPhase.inMemory

/-- The semaphore size: max_memory_usage / MAX_CHUNK_SIZE in integer (floor)
division (utils.rs line 1011). -/
def max_chunks_in_memory (max_memory_usage max_chunk_size : Nat) : Nat :=
  max_memory_usage / max_chunk_size

/-- One interleaving step of the pipeline; none when the event is not enabled. -/
def pipe_step (cap : Nat) (s : List ChunkPhase) : PipeEvent → Option (List ChunkPhase)
  | PipeEvent.acquire i =>
    if s[i]? = some ChunkPhase.notStarted ∧ permits_held s < cap then
      some (s.set i ChunkPhase.permitted)
    else none
  | PipeEvent.downloaded i =>
    if s[i]? = some ChunkPhase.permitted then some (s.set i ChunkPhase.inMemory)
    else none
  | PipeEvent.write i =>
    if s[i]? = some ChunkPhase.inMemory then some (s.set i ChunkPhase.written)
    else none
  | PipeEvent.abandon i =>
    if s[i]? = some ChunkPhase.inMemory then some (s.set i ChunkPhase.abandoned)
    else none

/-- Run a whole interleaving; none as soon as one event is not enabled. -/
def pipe_run (cap : Nat) : List ChunkPhase → List PipeEvent → Option (List ChunkPhase)
  | s, [] => some s
  | s, e :: es =>
    match pipe_step cap s e with
    | some s2 => pipe_run cap s2 es
    | none => none

/-! # Helper lemmas -/

/-- The CSV writer step: append the serialized row when one is produced. -/
def emit_row (acc : List BuildManifestRecord) (o : Option BuildManifestRecord) :
    List BuildManifestRecord :=
  match o with
  | some y => acc ++ [y]
  | none => acc

theorem foldl_filterMap_aux (f : BuildManifestRecord → Option BuildManifestRecord) :
    ∀ (l : List BuildManifestRecord) (init : List BuildManifestRecord),
      l.foldl (fun acc x => emit_row acc (f x)) init = init ++ l.filterMap f := by
  intro l
  induction l with
  | nil => intro init; simp
  | cons x xs ih =>
    intro init
    rcases h : f x with _ | y
    · simp only [List.foldl_cons]
      rw [h]
      have e1 : emit_row init none = init := rfl
      rw [e1, ih, List.filterMap_cons, h]
    · simp only [List.foldl_cons]
      rw [h]
      have e1 : emit_row init (some y) = init ++ [y] := rfl
      rw [e1, ih, List.filterMap_cons, h]
      simp [List.append_assoc]

theorem map_filter_eq_filterMap {α β : Type} (p : α → Bool) (f : α → β) :
    ∀ l : List α,
      (l.filter p).map f = l.filterMap (fun x => if p x then some (f x) else none) := by
  intro l
  induction l with
  | nil => simp
  | cons x xs ih =>
    rcases h : p x with _ | _ <;>
      simp [List.filter_cons, List.filterMap_cons, h, ih]

theorem delta_new_pass_body (old : List BuildManifestRecord) :
    (fun (acc : List BuildManifestRecord) ne =>
      if ! old.any (fun e => e.file_name == ne.file_name) then
        acc ++ [set_tag ne (some ChangeTag.Added)]
      else
        match old.find? (fun e => e.file_name == ne.file_name) with
        | some oe =>
          if oe.sha != ne.sha then acc ++ [set_tag ne (some ChangeTag.Modified)] else acc
        | none => acc)
    = (fun acc ne => emit_row acc (classify_new old ne)) := by
  funext acc ne
  unfold classify_new emit_row
  rcases h : (! old.any (fun e => e.file_name == ne.file_name)) with _ | _
  · rcases hf : old.find? (fun e => e.file_name == ne.file_name) with _ | oe
    · simp [h, hf]
    · rcases hs : oe.sha != ne.sha with _ | _ <;> simp [h, hf, hs]
  · simp [h]

/-- The delta generation equals the interleaved single-pass form: per-record
classification of new, then the Removed rows. Shared helper. -/
theorem delta_manifest_eq (old new : List BuildManifestRecord) :
    read_or_generate_delta_manifest old new
      = new.filterMap (classify_new old) ++ removed_rows old new := by
  unfold read_or_generate_delta_manifest
  rw [delta_new_pass_body, foldl_filterMap_aux, List.nil_append]
  have hbody : (fun (acc : List BuildManifestRecord) oe =>
      if ! new.any (fun e => e.file_name == oe.file_name) then
        acc ++ [set_tag oe (some ChangeTag.Removed)]
      else acc)
    = (fun acc oe =>
        emit_row acc (if ! new.any (fun e => e.file_name == oe.file_name) then
          some (set_tag oe (some ChangeTag.Removed)) else none)) := by
    funext acc oe
    rcases h : (! new.any (fun e => e.file_name == oe.file_name)) with _ | _ <;>
      simp [h, emit_row]
  rw [hbody, foldl_filterMap_aux]
  unfold removed_rows
  rw [map_filter_eq_filterMap]

/-! # Claim theorems -/

/-- C2 counterexample: with old = [a(sha 1)] and new = [a(sha 2), b(sha 3)] the
code emits the Modified row for a before the Added row for b (a single
interleaved pass over new), whereas the claim's order puts all Added rows
before all Modified rows. -/
theorem delta_manifest_order_counterexample :
    read_or_generate_delta_manifest
        [⟨"a", "1", 0, 0, 1, none⟩]
        [⟨"a", "2", 0, 0, 1, none⟩, ⟨"b", "3", 0, 0, 1, none⟩]
      = [⟨"a", "2", 0, 0, 1, some ChangeTag.Modified⟩,
         ⟨"b", "3", 0, 0, 1, some ChangeTag.Added⟩]
    ∧ claimed_delta_manifest
        [⟨"a", "1", 0, 0, 1, none⟩]
        [⟨"a", "2", 0, 0, 1, none⟩, ⟨"b", "3", 0, 0, 1, none⟩]
      = [⟨"b", "3", 0, 0, 1, some ChangeTag.Added⟩,
         ⟨"a", "2", 0, 0, 1, some ChangeTag.Modified⟩]
    ∧ read_or_generate_delta_manifest
        [⟨"a", "1", 0, 0, 1, none⟩]
        [⟨"a", "2", 0, 0, 1, none⟩, ⟨"b", "3", 0, 0, 1, none⟩]
      ≠ claimed_delta_manifest
        [⟨"a", "1", 0, 0, 1, none⟩]
        [⟨"a", "2", 0, 0, 1, none⟩, ⟨"b", "3", 0, 0, 1, none⟩] := by
  refine ⟨by decide, by decide, by decide⟩

/-- C2 (amended): the delta manifest is a single pass over new, emitting for
each record (in new-manifest order) the record tagged Added when its file_name
is absent from old, or tagged Modified when the first old record with equal
file_name has a different sha; after all Added/Modified rows come the Removed
rows (old records whose file_name is absent from new, in old order). Name and
sha comparison is exact string equality. -/
theorem delta_manifest_interleaved_order (old new : List BuildManifestRecord) :
    read_or_generate_delta_manifest old new
      = new.filterMap (classify_new old) ++ removed_rows old new :=
  delta_manifest_eq old new

/-- C3: characterization of the delta chunks pass: the first cursor read of a
nonempty delta starts the loop; a Removed cursor terminates the pass; directory
or zero-chunk cursor entries are skipped (the exhausted stream leaving the
cursor parked); a chunk whose file_path differs from the cursor's file_name is
dropped; a matching chunk is emitted verbatim, and the cursor advances exactly
when chunk.id + 1 equals the cursor entry's chunks count. -/
theorem delta_chunks_pass_characterization :
    (∀ delta new_chunks f rest, delta = f :: rest →
        read_or_generate_delta_chunks_manifest delta new_chunks
          = some (delta_chunks_loop f rest new_chunks))
  ∧ (∀ cf rest c cs, cf.tag = some ChangeTag.Removed →
        delta_chunks_loop cf rest (c :: cs) = [])
  ∧ (∀ cf f rest2, (cf.is_directory || cf.is_empty) = true →
        skip_cursor cf (f :: rest2) = skip_cursor f rest2)
  ∧ (∀ cf rest, (cf.is_directory || cf.is_empty) = false →
        skip_cursor cf rest = (cf, rest))
  ∧ (∀ cf rest c cs, cf.tag ≠ some ChangeTag.Removed →
        c.file_path ≠ (skip_cursor cf rest).1.file_name →
        delta_chunks_loop cf rest (c :: cs)
          = delta_chunks_loop (skip_cursor cf rest).1 (skip_cursor cf rest).2 cs)
  ∧ (∀ cf rest c cs, cf.tag ≠ some ChangeTag.Removed →
        c.file_path = (skip_cursor cf rest).1.file_name →
        c.id + 1 ≠ (skip_cursor cf rest).1.chunks →
        delta_chunks_loop cf rest (c :: cs)
          = c :: delta_chunks_loop (skip_cursor cf rest).1 (skip_cursor cf rest).2 cs)
  ∧ (∀ cf rest c cs f rest2, cf.tag ≠ some ChangeTag.Removed →
        c.file_path = (skip_cursor cf rest).1.file_name →
        c.id + 1 = (skip_cursor cf rest).1.chunks →
        (skip_cursor cf rest).2 = f :: rest2 →
        delta_chunks_loop cf rest (c :: cs) = c :: delta_chunks_loop f rest2 cs) := by
  refine ⟨?_, ?_, ?_, ?_, ?_, ?_, ?_⟩
  · intro delta new_chunks f rest h
    subst h
    rfl
  · intro cf rest c cs h
    simp [delta_chunks_loop, h]
  · intro cf f rest2 h
    simp [skip_cursor, h]
  · intro cf rest h
    cases rest <;> simp [skip_cursor, h]
  · intro cf rest c cs hrm hne
    simp [delta_chunks_loop, hrm, hne]
  · intro cf rest c cs hrm heq hne
    simp [delta_chunks_loop, hrm, heq, hne]
  · intro cf rest c cs f rest2 hrm heq hadv hrest
    simp [delta_chunks_loop, hrm, heq, hadv, hrest]

/-- C3 witness: each case of the characterization evaluated on a concrete
cursor state and chunk. -/
theorem delta_chunks_pass_characterization_witness :
    read_or_generate_delta_chunks_manifest
        [⟨"A", "s", 0, 4, 2, some ChangeTag.Added⟩] [⟨"x", "A", 0⟩]
      = some (delta_chunks_loop ⟨"A", "s", 0, 4, 2, some ChangeTag.Added⟩ [] [⟨"x", "A", 0⟩])
  ∧ delta_chunks_loop ⟨"r", "s", 0, 4, 1, some ChangeTag.Removed⟩ [] [⟨"x", "A", 0⟩] = []
  ∧ skip_cursor ⟨"d", "", 40, 0, 0, none⟩ [⟨"A", "s", 0, 4, 2, some ChangeTag.Added⟩]
      = skip_cursor ⟨"A", "s", 0, 4, 2, some ChangeTag.Added⟩ []
  ∧ skip_cursor ⟨"A", "s", 0, 4, 2, some ChangeTag.Added⟩ []
      = (⟨"A", "s", 0, 4, 2, some ChangeTag.Added⟩, [])
  ∧ delta_chunks_loop ⟨"A", "s", 0, 4, 2, some ChangeTag.Added⟩ [] [⟨"x", "B", 0⟩]
      = delta_chunks_loop ⟨"A", "s", 0, 4, 2, some ChangeTag.Added⟩ [] []
  ∧ delta_chunks_loop ⟨"A", "s", 0, 4, 2, some ChangeTag.Added⟩ [] [⟨"x", "A", 0⟩]
      = ⟨"x", "A", 0⟩ :: delta_chunks_loop ⟨"A", "s", 0, 4, 2, some ChangeTag.Added⟩ [] []
  ∧ delta_chunks_loop ⟨"A", "s", 0, 4, 2, some ChangeTag.Added⟩
        [⟨"B", "t", 0, 4, 1, some ChangeTag.Added⟩] [⟨"x", "A", 1⟩]
      = ⟨"x", "A", 1⟩ :: delta_chunks_loop ⟨"B", "t", 0, 4, 1, some ChangeTag.Added⟩ [] [] := by
  refine ⟨delta_chunks_pass_characterization.1 _ _ _ _ rfl,
    delta_chunks_pass_characterization.2.1 _ _ _ _ rfl,
    delta_chunks_pass_characterization.2.2.1 _ _ _ (by decide),
    delta_chunks_pass_characterization.2.2.2.1 _ _ (by decide),
    delta_chunks_pass_characterization.2.2.2.2.1 _ _ _ _ (by decide) (by decide),
    delta_chunks_pass_characterization.2.2.2.2.2.1 _ _ _ _ (by decide) (by decide) (by decide),
    delta_chunks_pass_characterization.2.2.2.2.2.2 _ _ _ _ _ _ (by decide) (by decide)
      (by decide) (by decide)⟩

theorem split_on_underscore_ne_nil (l : List Char) : split_on_underscore l ≠ [] := by
  cases l with
  | nil => simp [split_on_underscore]
  | cons c rest =>
    rw [split_on_underscore]
    by_cases h : c = '_'
    · simp [h]
    · rcases h2 : split_on_underscore rest with _ | ⟨s, ss⟩ <;> simp [h, h2]

/-- C5: with skip_verify false, the download task splits chunk.sha on '_'; the
last token always exists (Rust split never yields an empty iterator, so the
no-last-token branch that would skip verification and still send is
unreachable), and the chunk is sent to the writer exactly when the hash of the
downloaded bytes equals that token; on mismatch it is abandoned (never sent). -/
theorem chunk_verification_split (s256 : Bytes → String)
    (r : BuildManifestChunksRecord) (chunk : Bytes) :
    ∃ t, (split_on_underscore r.sha.data).getLast? = some t
      ∧ download_task_sends false s256 r chunk = (s256 chunk == String.mk t) := by
  rcases ht : (split_on_underscore r.sha.data).getLast? with _ | t
  · exact absurd (List.getLast?_eq_none_iff.mp ht) (split_on_underscore_ne_nil _)
  · refine ⟨t, rfl, ?_⟩
    rcases hb : (s256 chunk == String.mk t) with _ | _ <;>
      simp [download_task_sends, ht, verify_chunk, hb]

/-- C6 counterexample: a directory record tagged Modified, absent on disk. The
claim requires every record whose processing is not stopped (only Removed
stops) to be prepared, so the directory would be created; the Rust layout loop
ends the is_directory branch with an unconditional continue, so the code
leaves the filesystem untouched. -/
theorem layout_modified_directory_counterexample :
    layout_step [] ⟨"d", "", 40, 0, 0, some ChangeTag.Modified⟩ = Except.ok []
  ∧ claimed_layout_step [] ⟨"d", "", 40, 0, 0, some ChangeTag.Modified⟩
      = Except.ok [("d", FsEntry.dir)]
  ∧ ([] : Fs) ≠ [("d", FsEntry.dir)] := by
  refine ⟨rfl, rfl, by decide⟩

/-- C6 (amended): for every record of the consumed file manifest: if its tag is
Modified or Removed, the existing on-disk entry is removed (remove_dir_all for
directory records when the path is an existing directory, remove_file for file
records when the path is an existing file); processing of the record stops when
the tag is Removed or when the record is a directory (a Modified directory is
removed but never re-created); every record not stopped at is then prepared -
a directory is created if missing and a regular file is (re)created empty,
truncating any prior content. -/
theorem layout_step_characterization :
    (∀ (fs : Fs) (r : BuildManifestRecord),
        (r.tag = some ChangeTag.Modified ∨ r.tag = some ChangeTag.Removed) →
        r.is_directory = true →
        layout_step fs r = Except.ok (remove_dir_entry r.file_name fs))
  ∧ (∀ (fs : Fs) (r : BuildManifestRecord),
        r.tag = some ChangeTag.Removed → r.is_directory = false →
        layout_step fs r = Except.ok (remove_file_entry r.file_name fs))
  ∧ (∀ (fs : Fs) (r : BuildManifestRecord),
        r.tag = some ChangeTag.Modified → r.is_directory = false →
        layout_step fs r
          = prepare_file r.file_name r.is_directory (remove_file_entry r.file_name fs))
  ∧ (∀ (fs : Fs) (r : BuildManifestRecord),
        ¬(r.tag = some ChangeTag.Modified ∨ r.tag = some ChangeTag.Removed) →
        layout_step fs r = prepare_file r.file_name r.is_directory fs)
  ∧ (∀ (fs : Fs) (p : String), path_exists p fs = false →
        prepare_file p true fs = Except.ok (fs_insert p FsEntry.dir fs))
  ∧ (∀ (fs : Fs) (p : String), path_exists p fs = true →
        prepare_file p true fs = Except.ok fs)
  ∧ (∀ (fs : Fs) (p : String), fs_lookup p fs ≠ some FsEntry.dir →
        prepare_file p false fs = Except.ok (fs_insert p (FsEntry.file []) fs)) := by
  refine ⟨?_, ?_, ?_, ?_, ?_, ?_, ?_⟩
  · intro fs r htag hdir
    unfold layout_step
    rw [if_pos htag, if_pos hdir]
  · intro fs r htag hdir
    unfold layout_step
    rw [if_pos (Or.inr htag), if_neg (by simp [hdir]), if_pos htag]
  · intro fs r htag hdir
    unfold layout_step
    rw [if_pos (Or.inl htag), if_neg (by simp [hdir]), if_neg (by simp [htag])]
  · intro fs r htag
    unfold layout_step
    rw [if_neg htag]
  · intro fs p h
    simp [prepare_file, h]
  · intro fs p h
    simp [prepare_file, h]
  · intro fs p h
    unfold prepare_file
    rcases h2 : fs_lookup p fs with _ | e
    · simp [h2]
    · cases e with
      | dir => exact absurd h2 h
      | file c => simp [h2]

/-- C6 witness: each case of the characterization evaluated on concrete records
and filesystems. -/
theorem layout_step_characterization_witness :
    layout_step [("d", FsEntry.dir)] ⟨"d", "", 40, 0, 0, some ChangeTag.Removed⟩
      = Except.ok (remove_dir_entry "d" [("d", FsEntry.dir)])
  ∧ layout_step [("f", FsEntry.file [1])] ⟨"f", "s", 0, 1, 1, some ChangeTag.Removed⟩
      = Except.ok (remove_file_entry "f" [("f", FsEntry.file [1])])
  ∧ layout_step [("f", FsEntry.file [1])] ⟨"f", "s", 0, 1, 1, some ChangeTag.Modified⟩
      = prepare_file "f" false (remove_file_entry "f" [("f", FsEntry.file [1])])
  ∧ layout_step [] ⟨"f", "s", 0, 1, 1, none⟩ = prepare_file "f" false []
  ∧ prepare_file "p" true [] = Except.ok (fs_insert "p" FsEntry.dir [])
  ∧ prepare_file "p" true [("p", FsEntry.dir)] = Except.ok [("p", FsEntry.dir)]
  ∧ prepare_file "p" false [] = Except.ok (fs_insert "p" (FsEntry.file []) []) := by
  refine ⟨layout_step_characterization.1 _ _ (Or.inr rfl) (by decide),
    layout_step_characterization.2.1 _ _ rfl (by decide),
    layout_step_characterization.2.2.1 _ _ rfl (by decide),
    layout_step_characterization.2.2.2.1 _ _ (by decide),
    layout_step_characterization.2.2.2.2.1 _ _ (by decide),
    layout_step_characterization.2.2.2.2.2.1 _ _ (by decide),
    layout_step_characterization.2.2.2.2.2.2 _ _ (by decide)⟩

theorem verify_task_eq_true_iff (s256 : Bytes → String) (fs : Fs) (p sha : String) :
    verify_task s256 fs p sha = true ↔
      ∃ c, fs_lookup p fs = some (FsEntry.file c) ∧ s256 c = sha := by
  unfold verify_task verify_file_hash
  rcases h : fs_lookup p fs with _ | e
  · simp [h]
  · cases e with
    | dir => simp [h]
    | file c => simp [h, beq_iff_eq]

/-- C7: verify returns true iff every non-directory record of the manifest has
an existing regular file at its path whose streamed hash equals the record's
sha; a single missing or mismatched file yields false. -/
theorem verify_iff_all_files_match (s256 : Bytes → String) (fs : Fs) :
    ∀ manifest : List BuildManifestRecord,
      verify s256 fs manifest = true ↔
        ∀ r ∈ manifest, r.is_directory = false →
          ∃ c, fs_lookup r.file_name fs = some (FsEntry.file c) ∧ s256 c = r.sha := by
  intro manifest
  induction manifest with
  | nil => simp [verify, verify_collect]
  | cons r rest ih =>
    rcases hd : r.is_directory with _ | _
    · -- regular file record
      rcases hex : path_exists r.file_name fs with _ | _
      · have hv : verify s256 fs (r :: rest) = false := by
          simp [verify, verify_collect, hd, hex]
        rw [hv]
        constructor
        · intro h2; exact absurd h2 (by simp)
        · intro hall
          obtain ⟨c, hc, _⟩ := hall r (List.mem_cons_self r rest) hd
          have hex2 : path_exists r.file_name fs = true := by simp [path_exists, hc]
          rw [hex] at hex2
          exact absurd hex2 (by simp)
      · cases hcol : verify_collect s256 fs rest with
        | none =>
          have hv : verify s256 fs (r :: rest) = false := by
            simp [verify, verify_collect, hd, hex, hcol]
          have hvr : verify s256 fs rest = false := by simp [verify, hcol]
          rw [hv]
          constructor
          · intro h2; exact absurd h2 (by simp)
          · intro hall
            have hrest : ∀ r2 ∈ rest, r2.is_directory = false →
                ∃ c, fs_lookup r2.file_name fs = some (FsEntry.file c) ∧ s256 c = r2.sha :=
              fun r2 h2 => hall r2 (List.mem_cons_of_mem r h2)
            have := ih.mpr hrest
            rw [hvr] at this
            exact absurd this (by simp)
        | some bs =>
          have hv : verify s256 fs (r :: rest)
              = (verify_task s256 fs r.file_name r.sha && bs.all (fun b => b)) := by
            simp [verify, verify_collect, hd, hex, hcol]
          have hvr : verify s256 fs rest = bs.all (fun b => b) := by simp [verify, hcol]
          rw [hvr] at ih
          rw [hv, List.forall_mem_cons, Bool.and_eq_true, ih,
            verify_task_eq_true_iff s256 fs r.file_name r.sha]
          simp [hd]
    · -- directory record: skipped
      have h0 : verify_collect s256 fs (r :: rest) = verify_collect s256 fs rest := by
        simp only [verify_collect, hd, if_pos]
      have h1 : verify s256 fs (r :: rest) = verify s256 fs rest := by
        unfold verify
        rw [h0]
      rw [h1, ih, List.forall_mem_cons]
      simp [hd]

/-- C8: build_from_manifest returns true whenever the write loop completes,
for every queue and every arrival order (including arrival orders missing
abandoned chunks), so install's chunk-verification error branch is never
reached after a completed build. -/
theorem build_from_manifest_always_true :
    ∀ (queue : List QEntry) (arrivals : List (BuildManifestChunksRecord × Bytes)),
      (build_from_manifest_run queue arrivals).2 = true
      ∧ install_outcome (build_from_manifest_run queue arrivals).2 = InstallResult.success
      ∧ install_outcome (build_from_manifest_run queue arrivals).2
          ≠ InstallResult.chunksFailedVerification := by
  intro q a
  exact ⟨rfl, rfl, fun h => InstallResult.noConfusion h⟩

theorem download_size_fold (l : List BuildManifestRecord) :
    ∀ a : Nat,
      l.foldl (fun acc r =>
        match r.tag with
        | some ChangeTag.Removed => acc
        | _ => acc + r.size_in_bytes) a
      = a + ((l.filter (fun r => ! (r.tag == some ChangeTag.Removed))).map
          (fun r => r.size_in_bytes)).sum := by
  induction l with
  | nil => intro a; simp
  | cons r rest ih =>
    intro a
    rcases ht : r.tag with _ | t
    · simp only [List.foldl_cons, ht, List.filter_cons]
      rw [ih]
      simp [ht]
      omega
    · cases t <;>
      · simp only [List.foldl_cons, ht, List.filter_cons]
        rw [ih]
        simp [ht]
        try omega

theorem disk_size_fold (l : List BuildManifestRecord) :
    ∀ a : Nat,
      l.foldl (fun acc r => acc + r.size_in_bytes) a
        = a + (l.map (fun r => r.size_in_bytes)).sum := by
  induction l with
  | nil => intro a; simp
  | cons r rest ih =>
    intro a
    simp only [List.foldl_cons, List.map_cons, List.sum_cons]
    rw [ih]
    omega

/-- C9: in update's info-only mode the download size is the sum of
size_in_bytes over non-Removed delta entries, the needed space is the sum over
the new manifest minus the sum over the old manifest, and a negative needed
space is rendered with a leading "-" before the absolute value (the f64
accumulation is modelled with exact arithmetic). -/
theorem update_info_sizes :
    ∀ (delta old new : List BuildManifestRecord),
      update_info_download_size delta
        = ((delta.filter (fun r => ! (r.tag == some ChangeTag.Removed))).map
            (fun r => r.size_in_bytes)).sum
    ∧ update_needed_space old new
        = ((new.map (fun r => r.size_in_bytes)).sum : Int)
          - ((old.map (fun r => r.size_in_bytes)).sum : Int)
    ∧ (update_needed_space old new < 0 →
        render_needed_space (update_needed_space old new)
          = ("-", -update_needed_space old new))
    ∧ (0 ≤ update_needed_space old new →
        render_needed_space (update_needed_space old new)
          = ("", update_needed_space old new)) := by
  intro delta old new
  refine ⟨?_, ?_, ?_, ?_⟩
  · unfold update_info_download_size
    rw [download_size_fold]
    omega
  · unfold update_needed_space manifest_disk_size
    rw [disk_size_fold, disk_size_fold]
    simp [Function.comp_def]
  · intro h
    unfold render_needed_space
    rw [if_pos h, if_pos h]
  · intro h
    unfold render_needed_space
    rw [if_neg (by omega), if_neg (by omega)]

/-- C9 witness: the sign rendering evaluated on a shrinking and a growing
update. -/
theorem update_info_sizes_witness :
    update_needed_space [⟨"a", "", 0, 10, 0, none⟩] [] < 0
  ∧ render_needed_space (update_needed_space [⟨"a", "", 0, 10, 0, none⟩] [])
      = ("-", -update_needed_space [⟨"a", "", 0, 10, 0, none⟩] [])
  ∧ 0 ≤ update_needed_space [] [⟨"a", "", 0, 10, 0, none⟩]
  ∧ render_needed_space (update_needed_space [] [⟨"a", "", 0, 10, 0, none⟩])
      = ("", update_needed_space [] [⟨"a", "", 0, 10, 0, none⟩]) := by
  refine ⟨by decide,
    (update_info_sizes [] [⟨"a", "", 0, 10, 0, none⟩] []).2.2.1 (by decide),
    by decide,
    (update_info_sizes [] [] [⟨"a", "", 0, 10, 0, none⟩]).2.2.2 (by decide)⟩

theorem nodup_map_inj {α β : Type} {f : α → β} :
    ∀ {l : List α}, (l.map f).Nodup → ∀ x ∈ l, ∀ y ∈ l, f x = f y → x = y := by
  intro l
  induction l with
  | nil => intro _ x hx; cases hx
  | cons a tl ih =>
    intro hnd x hx y hy hf
    rw [List.map_cons, List.nodup_cons] at hnd
    obtain ⟨hna, hnd2⟩ := hnd
    rcases List.mem_cons.mp hx with rfl | hx2
    · rcases List.mem_cons.mp hy with rfl | hy2
      · rfl
      · exact absurd (hf ▸ List.mem_map_of_mem f hy2) hna
    · rcases List.mem_cons.mp hy with rfl | hy2
      · exact absurd (hf ▸ List.mem_map_of_mem f hx2) hna
      · exact ih hnd2 x hx2 y hy2 hf

/-- C10: when the old manifest has duplicate-free names and the two manifests
are identical in names and shas, the synthesized delta is empty and
read_or_generate_delta_chunks_manifest hits the panicking first cursor read,
modelled as none, instead of returning an empty delta chunks manifest. -/
theorem delta_chunks_empty_delta_panics :
    ∀ (old new : List BuildManifestRecord) (cs : List BuildManifestChunksRecord),
      (old.map (fun r => r.file_name)).Nodup →
      old.map (fun r => (r.file_name, r.sha)) = new.map (fun r => (r.file_name, r.sha)) →
      read_or_generate_delta_manifest old new = []
      ∧ read_or_generate_delta_chunks_manifest (read_or_generate_delta_manifest old new) cs
          = none := by
  intro old new cs hnd hpairs
  have hdelta : read_or_generate_delta_manifest old new = [] := by
    rw [delta_manifest_eq]
    have h1 : new.filterMap (classify_new old) = [] := by
      rw [List.filterMap_eq_nil_iff]
      intro ne hne
      have hp : (ne.file_name, ne.sha) ∈ old.map (fun r => (r.file_name, r.sha)) := by
        rw [hpairs]
        exact List.mem_map_of_mem _ hne
      obtain ⟨oe, hoe, hpair⟩ := List.mem_map.mp hp
      have hname : oe.file_name = ne.file_name := congrArg Prod.fst hpair
      have hsha : oe.sha = ne.sha := congrArg Prod.snd hpair
      have hany : old.any (fun e => e.file_name == ne.file_name) = true := by
        rw [List.any_eq_true]
        exact ⟨oe, hoe, by simp [hname]⟩
      rcases hfind : old.find? (fun e => e.file_name == ne.file_name) with _ | oe0
      · rw [List.find?_eq_none] at hfind
        exact absurd (show (oe.file_name == ne.file_name) = true by simp [hname])
          (by simpa using hfind oe hoe)
      · have hmem0 : oe0 ∈ old := List.mem_of_find?_eq_some hfind
        have hname0 : oe0.file_name = ne.file_name := by
          have h3 := List.find?_some hfind
          exact beq_iff_eq.mp h3
        have heq0 : oe0 = oe := nodup_map_inj hnd oe0 hmem0 oe hoe (by rw [hname0, hname])
        have hsha0 : oe0.sha = ne.sha := by rw [heq0]; exact hsha
        simp [classify_new, hany, hfind, hsha0]
    have h2 : removed_rows old new = [] := by
      unfold removed_rows
      rw [List.map_eq_nil_iff, List.filter_eq_nil_iff]
      intro oe hoe
      have hp : (oe.file_name, oe.sha) ∈ new.map (fun r => (r.file_name, r.sha)) := by
        rw [← hpairs]
        exact List.mem_map_of_mem _ hoe
      obtain ⟨ne, hne, hpair⟩ := List.mem_map.mp hp
      have hname : ne.file_name = oe.file_name := congrArg Prod.fst hpair
      have hany : new.any (fun e => e.file_name == oe.file_name) = true := by
        rw [List.any_eq_true]
        exact ⟨ne, hne, by simp [hname]⟩
      simp [hany]
    rw [h1, h2]
    rfl
  refine ⟨hdelta, ?_⟩
  rw [hdelta]
  rfl

/-- C10 witness: two identical one-file manifests give an empty delta; the
chunks pass panics (none). -/
theorem delta_chunks_empty_delta_panics_witness :
    read_or_generate_delta_manifest
        [⟨"a", "1", 0, 0, 1, none⟩] [⟨"a", "1", 0, 0, 1, none⟩] = []
  ∧ read_or_generate_delta_chunks_manifest
      (read_or_generate_delta_manifest
        [⟨"a", "1", 0, 0, 1, none⟩] [⟨"a", "1", 0, 0, 1, none⟩])
      [⟨"x", "a", 0⟩] = none :=
  delta_chunks_empty_delta_panics
    [⟨"a", "1", 0, 0, 1, none⟩] [⟨"a", "1", 0, 0, 1, none⟩] [⟨"x", "a", 0⟩]
    (by decide) (by decide)

theorem count_phase_cons (x : ChunkPhase) (tl : List ChunkPhase) (p : ChunkPhase) :
    count_phase (x :: tl) p = (if x = p then 1 else 0) + count_phase tl p := by
  by_cases h : x = p
  · simp [count_phase, List.filter_cons, beq_iff_eq, h]
    omega
  · simp [count_phase, List.filter_cons, beq_iff_eq, h]

theorem count_phase_set (l : List ChunkPhase) :
    ∀ (i : Nat) (a b p : ChunkPhase), l[i]? = some a →
      count_phase (l.set i b) p + (if a = p then 1 else 0)
        = count_phase l p + (if b = p then 1 else 0) := by
  induction l with
  | nil => intro i a b p h; simp at h
  | cons x tl ih =>
    intro i a b p h
    cases i with
    | zero =>
      have hx : x = a := by simpa using h
      subst hx
      rw [List.set_cons_zero, count_phase_cons, count_phase_cons]
      omega
    | succ n =>
      have h2 : tl[n]? = some a := by simpa using h
      rw [List.set_cons_succ, count_phase_cons, count_phase_cons]
      have h3 := ih n a b p h2
      omega

theorem pipe_step_held_acquire (cap : Nat) (s s2 : List ChunkPhase) (i : Nat)
    (hstep : pipe_step cap s (PipeEvent.acquire i) = some s2) :
    permits_held s2 = permits_held s + 1 ∧ permits_held s < cap := by
  simp only [pipe_step] at hstep
  split at hstep
  case isTrue hcond =>
    obtain ⟨hget, hlt⟩ := hcond
    have h2 : s2 = s.set i ChunkPhase.permitted := (Option.some.inj hstep).symm
    subst h2
    have c1 := count_phase_set s i ChunkPhase.notStarted ChunkPhase.permitted
      ChunkPhase.permitted hget
    have c2 := count_phase_set s i ChunkPhase.notStarted ChunkPhase.permitted
      ChunkPhase.inMemory hget
    simp at c1 c2
    unfold permits_held at hlt ⊢
    omega
  case isFalse => cases hstep

theorem pipe_step_held_downloaded (cap : Nat) (s s2 : List ChunkPhase) (i : Nat)
    (hstep : pipe_step cap s (PipeEvent.downloaded i) = some s2) :
    permits_held s2 = permits_held s := by
  simp only [pipe_step] at hstep
  split at hstep
  case isTrue hget =>
    have h2 : s2 = s.set i ChunkPhase.inMemory := (Option.some.inj hstep).symm
    subst h2
    have c1 := count_phase_set s i ChunkPhase.permitted ChunkPhase.inMemory
      ChunkPhase.permitted hget
    have c2 := count_phase_set s i ChunkPhase.permitted ChunkPhase.inMemory
      ChunkPhase.inMemory hget
    simp at c1 c2
    unfold permits_held
    omega
  case isFalse => cases hstep

theorem pipe_step_held_write (cap : Nat) (s s2 : List ChunkPhase) (i : Nat)
    (hstep : pipe_step cap s (PipeEvent.write i) = some s2) :
    permits_held s2 + 1 = permits_held s := by
  simp only [pipe_step] at hstep
  split at hstep
  case isTrue hget =>
    have h2 : s2 = s.set i ChunkPhase.written := (Option.some.inj hstep).symm
    subst h2
    have c1 := count_phase_set s i ChunkPhase.inMemory ChunkPhase.written
      ChunkPhase.permitted hget
    have c2 := count_phase_set s i ChunkPhase.inMemory ChunkPhase.written
      ChunkPhase.inMemory hget
    simp at c1 c2
    unfold permits_held
    omega
  case isFalse => cases hstep

theorem pipe_step_held_abandon (cap : Nat) (s s2 : List ChunkPhase) (i : Nat)
    (hstep : pipe_step cap s (PipeEvent.abandon i) = some s2) :
    permits_held s2 + 1 = permits_held s := by
  simp only [pipe_step] at hstep
  split at hstep
  case isTrue hget =>
    have h2 : s2 = s.set i ChunkPhase.abandoned := (Option.some.inj hstep).symm
    subst h2
    have c1 := count_phase_set s i ChunkPhase.inMemory ChunkPhase.abandoned
      ChunkPhase.permitted hget
    have c2 := count_phase_set s i ChunkPhase.inMemory ChunkPhase.abandoned
      ChunkPhase.inMemory hget
    simp at c1 c2
    unfold permits_held
    omega
  case isFalse => cases hstep

theorem pipe_step_permits_bound (cap : Nat) (s s2 : List ChunkPhase) (e : PipeEvent)
    (hstep : pipe_step cap s e = some s2) (hle : permits_held s ≤ cap) :
    permits_held s2 ≤ cap := by
  cases e with
  | acquire i =>
    have h := pipe_step_held_acquire cap s s2 i hstep
    omega
  | downloaded i =>
    have h := pipe_step_held_downloaded cap s s2 i hstep
    omega
  | write i =>
    have h := pipe_step_held_write cap s s2 i hstep
    omega
  | abandon i =>
    have h := pipe_step_held_abandon cap s s2 i hstep
    omega

theorem pipe_run_permits_bound (cap : Nat) :
    ∀ (events : List PipeEvent) (s s2 : List ChunkPhase),
      pipe_run cap s events = some s2 → permits_held s ≤ cap → permits_held s2 ≤ cap := by
  intro events
  induction events with
  | nil =>
    intro s s2 h hle
    have h2 : s = s2 := by simpa [pipe_run] using h
    exact h2 ▸ hle
  | cons e es ih =>
    intro s s2 h hle
    rcases hstep : pipe_step cap s e with _ | s1
    · rw [pipe_run, hstep] at h
      cases h
    · rw [pipe_run, hstep] at h
      exact ih s1 s2 h (pipe_step_permits_bound cap s s1 e hstep hle)

theorem permits_held_replicate (n : Nat) :
    permits_held (List.replicate n ChunkPhase.notStarted) = 0 := by
  induction n with
  | zero => rfl
  | succ k ih =>
    unfold permits_held at ih ⊢
    rw [List.replicate_succ, count_phase_cons, count_phase_cons]
    simp only [reduceIte, reduceCtorEq]
    omega

/-- C4 counterexample: a one-chunk pipeline with capacity one, where the chunk
is downloaded and then fails verification; the task returns before sending and
its memory permit is dropped with the task scope. Afterwards no permit is
outstanding although the writer never appended the chunk, so the permit was
not released "only after the writer has appended that chunk's bytes to disk"
as the claim states. -/
theorem mem_permit_release_counterexample :
    pipe_run 1 [ChunkPhase.notStarted]
        [PipeEvent.acquire 0, PipeEvent.downloaded 0, PipeEvent.abandon 0]
      = some [ChunkPhase.abandoned]
    ∧ permits_held [ChunkPhase.abandoned] = 0
    ∧ count_phase [ChunkPhase.abandoned] ChunkPhase.written = 0 := by
  refine ⟨by decide, by decide, by decide⟩

/-- C4 (amended): in every interleaving of the pipeline the number of
downloaded-but-not-yet-written chunks in memory never exceeds
floor(max_memory_usage / MAX_CHUNK_SIZE); the permit is acquired before the
download task is spawned and is released only when the writer appends the
chunk's bytes or when the task abandons a chunk that failed verification
(discarding its bytes). -/
theorem mem_permit_bound :
    (∀ (max_memory_usage max_chunk_size n : Nat) (events : List PipeEvent)
        (s : List ChunkPhase),
      pipe_run (max_chunks_in_memory max_memory_usage max_chunk_size)
          (List.replicate n ChunkPhase.notStarted) events = some s →
      count_phase s ChunkPhase.inMemory ≤ max_memory_usage / max_chunk_size
      ∧ permits_held s ≤ max_memory_usage / max_chunk_size)
  ∧ (∀ (cap : Nat) (s1 s2 : List ChunkPhase) (e : PipeEvent),
      pipe_step cap s1 e = some s2 → permits_held s2 < permits_held s1 →
      ∃ i, e = PipeEvent.write i ∨ e = PipeEvent.abandon i) := by
  constructor
  · intro mm mc n events s hrun
    have hinit := permits_held_replicate n
    have hheld : permits_held s ≤ max_chunks_in_memory mm mc :=
      pipe_run_permits_bound _ events _ s hrun (by omega)
    have hmem : count_phase s ChunkPhase.inMemory ≤ permits_held s :=
      Nat.le_add_left _ _
    unfold max_chunks_in_memory at hheld
    exact ⟨by omega, hheld⟩
  · intro cap s1 s2 e hstep hlt
    cases e with
    | acquire i =>
      have h := pipe_step_held_acquire cap s1 s2 i hstep
      omega
    | downloaded i =>
      have h := pipe_step_held_downloaded cap s1 s2 i hstep
      omega
    | write i => exact ⟨i, Or.inl rfl⟩
    | abandon i => exact ⟨i, Or.inr rfl⟩

/-- C4 witness: a two-permit pipeline after acquiring and downloading one
chunk, and a write step that releases a permit. -/
theorem mem_permit_bound_witness :
    (count_phase [ChunkPhase.inMemory] ChunkPhase.inMemory ≤ 2 / 1
      ∧ permits_held [ChunkPhase.inMemory] ≤ 2 / 1)
  ∧ ∃ i, PipeEvent.write 0 = PipeEvent.write i ∨ PipeEvent.write 0 = PipeEvent.abandon i := by
  refine ⟨mem_permit_bound.1 2 1 1 [PipeEvent.acquire 0, PipeEvent.downloaded 0]
      [ChunkPhase.inMemory] (by decide),
    mem_permit_bound.2 1 [ChunkPhase.inMemory] [ChunkPhase.written] (PipeEvent.write 0)
      (by decide) (by decide)⟩

theorem buf_lookup_map_of_mem (B : BuildManifestChunksRecord → Bytes) :
    ∀ (S : List BuildManifestChunksRecord) (r : BuildManifestChunksRecord),
      r ∈ S → (∀ s ∈ S, key_of s = key_of r → s = r) →
      buf_lookup (key_of r) (S.map (buf_entry B)) = some (r.file_path, B r) := by
  intro S
  induction S with
  | nil => intro r hr; cases hr
  | cons s0 tl ih =>
    intro r hr hinj
    by_cases hk : key_of s0 = key_of r
    · have h0 : s0 = r := hinj s0 (List.mem_cons_self s0 tl) hk
      subst h0
      simp [buf_lookup, buf_entry]
    · have hr2 : r ∈ tl := by
        rcases List.mem_cons.mp hr with rfl | h2
        · exact absurd rfl hk
        · exact h2
      have htl := ih r hr2 (fun s hs => hinj s (List.mem_cons_of_mem s0 hs))
      simpa [buf_lookup, buf_entry, hk] using htl

theorem buf_lookup_map_of_none (B : BuildManifestChunksRecord → Bytes) :
    ∀ (S : List BuildManifestChunksRecord) (k : String),
      (∀ s ∈ S, key_of s ≠ k) →
      buf_lookup k (S.map (buf_entry B)) = none := by
  intro S
  induction S with
  | nil => intro k _; rfl
  | cons s0 tl ih =>
    intro k h
    have h0 : key_of s0 ≠ k := h s0 (List.mem_cons_self s0 tl)
    have htl := ih k (fun s hs => h s (List.mem_cons_of_mem s0 hs))
    simpa [buf_lookup, buf_entry, h0] using htl

theorem buf_remove_map (B : BuildManifestChunksRecord → Bytes) :
    ∀ (S : List BuildManifestChunksRecord) (k : String),
      buf_remove k (S.map (buf_entry B))
        = (S.filter (fun s => key_of s != k)).map (buf_entry B) := by
  intro S k
  induction S with
  | nil => rfl
  | cons s0 tl ih =>
    rcases h : (key_of s0 != k) with _ | _ <;>
      simp only [List.map_cons, buf_remove, List.filter_cons, h] <;>
      simpa [buf_entry, buf_remove, h] using ih

theorem buf_remove_map_id (B : BuildManifestChunksRecord → Bytes)
    (S : List BuildManifestChunksRecord) (k : String)
    (h : ∀ s ∈ S, key_of s ≠ k) :
    buf_remove k (S.map (buf_entry B)) = S.map (buf_entry B) := by
  rw [buf_remove_map]
  congr 1
  apply List.filter_eq_self.mpr
  intro s hs
  simpa using h s hs

theorem perm_cons_filter_key :
    ∀ (S : List BuildManifestChunksRecord) (h0 : BuildManifestChunksRecord),
      h0 ∈ S → S.Nodup → (∀ s ∈ S, key_of s = key_of h0 → s = h0) →
      S.Perm (h0 :: S.filter (fun s => key_of s != key_of h0)) := by
  intro S
  induction S with
  | nil => intro h0 hm; cases hm
  | cons s0 tl ih =>
    intro h0 hm hnd hinj
    rw [List.nodup_cons] at hnd
    obtain ⟨hs0, hnd2⟩ := hnd
    rcases List.mem_cons.mp hm with rfl | hm2
    · rw [List.filter_cons]
      have hk : (key_of h0 != key_of h0) = false := by simp
      rw [hk]
      have hfe : tl.filter (fun s => key_of s != key_of h0) = tl := by
        apply List.filter_eq_self.mpr
        intro s hs
        have hne : s ≠ h0 := fun he => hs0 (he ▸ hs)
        have hkne : key_of s ≠ key_of h0 := fun hk2 =>
          hne (hinj s (List.mem_cons_of_mem h0 hs) hk2)
        simpa using hkne
      simp [hfe]
    · rw [List.filter_cons]
      have hne : s0 ≠ h0 := fun he => hs0 (he ▸ hm2)
      have hk : (key_of s0 != key_of h0) = true := by
        have hkne : key_of s0 ≠ key_of h0 := fun hk2 =>
          hne (hinj s0 (List.mem_cons_self s0 tl) hk2)
        simpa using hkne
      rw [hk]
      simp only [if_pos rfl]
      have ihh := ih h0 hm2 hnd2 (fun s hs => hinj s (List.mem_cons_of_mem s0 hs))
      exact (ihh.cons s0).trans (List.Perm.swap h0 s0 _)

theorem drain_cons_some (sha : String) (id : Nat) (last : Bool) (qrest : List QEntry)
    (buf : Buffer) (fm : List String) (out : List AppendEv) (fp : String) (bts : Bytes)
    (h : buf_lookup (chunk_key id sha) buf = some (fp, bts)) :
    drain ((sha, id, last) :: qrest) buf fm out
      = drain qrest (buf_remove (chunk_key id sha) buf)
          (if last then (if fp ∈ fm then fm else fm ++ [fp]).filter (fun x => x != fp)
           else (if fp ∈ fm then fm else fm ++ [fp]))
          (out ++ [⟨fp, sha, id, bts⟩]) := by
  simp only [drain, h]

theorem drain_cons_none (sha : String) (id : Nat) (last : Bool) (qrest : List QEntry)
    (buf : Buffer) (fm : List String) (out : List AppendEv)
    (h : buf_lookup (chunk_key id sha) buf = none) :
    drain ((sha, id, last) :: qrest) buf fm out = ⟨(sha, id, last) :: qrest, buf, fm, out⟩ := by
  simp only [drain, h]

theorem drain_spec (B : BuildManifestChunksRecord → Bytes) :
    ∀ (remaining : List BuildManifestChunksRecord) (queue : List QEntry)
      (S : List BuildManifestChunksRecord) (fm : List String) (out : List AppendEv),
      queue.map (fun e => (e.1, e.2.1)) = remaining.map (fun r => (r.sha, r.id)) →
      (remaining.map key_of).Nodup →
      (∀ s ∈ S, s ∈ remaining) →
      S.Nodup →
      ∃ (k : Nat) (S2 : List BuildManifestChunksRecord) (fm2 : List String),
        drain queue (S.map (buf_entry B)) fm out
          = ⟨queue.drop k, S2.map (buf_entry B), fm2,
             out ++ (remaining.take k).map (append_ev B)⟩
        ∧ S.Perm (remaining.take k ++ S2)
        ∧ S2.Nodup
        ∧ (∀ s ∈ S2, s ∈ remaining.drop k)
        ∧ (∀ h t, remaining.drop k = h :: t → h ∉ S2) := by
  intro remaining
  induction remaining with
  | nil =>
    intro queue S fm out hproj hnd hmem hSnd
    have hq : queue = [] := by simpa using hproj
    subst hq
    refine ⟨0, S, fm, by simp [drain], by simp, hSnd, ?_, ?_⟩
    · intro s hs; exact hmem s hs
    · intro h t ht; cases ht
  | cons hd rt ih =>
    intro queue S fm out hproj hnd hmem hSnd
    rcases queue with _ | ⟨q0, qt⟩
    · simp at hproj
    · obtain ⟨qsha, qid, qlast⟩ := q0
      rw [List.map_cons, List.map_cons] at hproj
      injection hproj with hpair hproj2
      rw [Prod.mk.injEq] at hpair
      obtain ⟨h1, h2⟩ := hpair
      subst h1
      subst h2
      have hinj : ∀ x ∈ hd :: rt, ∀ y ∈ hd :: rt, key_of x = key_of y → x = y :=
        fun x hx y hy => nodup_map_inj hnd x hx y hy
      by_cases hm : hd ∈ S
      · -- head of the queue has arrived: one append, then recurse
        have hinjS : ∀ s ∈ S, key_of s = key_of hd → s = hd := fun s hs hk =>
          hinj s (hmem s hs) hd (List.mem_cons_self hd rt) hk
        have hlk : buf_lookup (chunk_key hd.id hd.sha) (S.map (buf_entry B))
            = some (hd.file_path, B hd) :=
          buf_lookup_map_of_mem B S hd hm hinjS
        have hrm : buf_remove (chunk_key hd.id hd.sha) (S.map (buf_entry B))
            = (S.filter (fun s => key_of s != key_of hd)).map (buf_entry B) :=
          buf_remove_map B S (key_of hd)
        have hS1mem : ∀ s ∈ S.filter (fun s => key_of s != key_of hd), s ∈ rt := by
          intro s hs
          rw [List.mem_filter] at hs
          obtain ⟨hsS, hkne⟩ := hs
          rcases List.mem_cons.mp (hmem s hsS) with rfl | h3
          · simp at hkne
          · exact h3
        have hS1nd : (S.filter (fun s => key_of s != key_of hd)).Nodup :=
          hSnd.filter _
        have hndrt : (rt.map key_of).Nodup := (List.nodup_cons.mp hnd).2
        obtain ⟨k2, S2, fm2, heq, hperm1, hnd2, hmem2, hhead2⟩ :=
          ih qt (S.filter (fun s => key_of s != key_of hd))
            (if qlast then
              (if hd.file_path ∈ fm then fm else fm ++ [hd.file_path]).filter
                (fun x => x != hd.file_path)
             else (if hd.file_path ∈ fm then fm else fm ++ [hd.file_path]))
            (out ++ [⟨hd.file_path, hd.sha, hd.id, B hd⟩])
            hproj2 hndrt hS1mem hS1nd
        refine ⟨k2 + 1, S2, fm2, ?_, ?_, hnd2, ?_, ?_⟩
        · rw [drain_cons_some hd.sha hd.id qlast qt _ fm out hd.file_path (B hd) hlk, hrm,
            heq]
          simp [List.take_succ_cons, List.drop_succ_cons, append_ev, List.append_assoc]
        · have hp1 := perm_cons_filter_key S hd hm hSnd hinjS
          simpa [List.take_succ_cons] using hp1.trans (hperm1.cons hd)
        · intro s hs
          simpa [List.drop_succ_cons] using hmem2 s hs
        · intro h t ht
          apply hhead2
          simpa [List.drop_succ_cons] using ht
      · -- head of the queue has not arrived: the writer blocks
        have hlk : buf_lookup (chunk_key hd.id hd.sha) (S.map (buf_entry B)) = none := by
          apply buf_lookup_map_of_none
          intro s hs hk
          exact hm (hinj s (hmem s hs) hd (List.mem_cons_self hd rt) hk ▸ hs)
        rw [drain_cons_none hd.sha hd.id qlast qt _ fm out hlk]
        refine ⟨0, S, fm, by simp, by simp, hSnd, ?_, ?_⟩
        · intro s hs
          exact hmem s hs
        · intro h t ht
          simp only [List.drop_zero] at ht
          injection ht with hh _
          subst hh
          exact hm

theorem run_writer_pending_nil (queue : List QEntry) (buf : Buffer) (fm : List String)
    (out : List AppendEv) :
    run_writer queue buf fm out [] = ⟨queue, buf, fm, out⟩ := by
  simp only [run_writer]

theorem run_writer_cons (q0 : QEntry) (qt : List QEntry) (buf : Buffer) (fm : List String)
    (out : List AppendEv) (r : BuildManifestChunksRecord) (bts : Bytes)
    (rest : List (BuildManifestChunksRecord × Bytes)) :
    run_writer (q0 :: qt) buf fm out ((r, bts) :: rest)
      = run_writer
          (drain (q0 :: qt)
            (buf_insert (chunk_key r.id r.sha) r.file_path bts buf) fm out).queue
          (drain (q0 :: qt)
            (buf_insert (chunk_key r.id r.sha) r.file_path bts buf) fm out).buffer
          (drain (q0 :: qt)
            (buf_insert (chunk_key r.id r.sha) r.file_path bts buf) fm out).files
          (drain (q0 :: qt)
            (buf_insert (chunk_key r.id r.sha) r.file_path bts buf) fm out).trace
          rest := by
  simp only [run_writer]

theorem run_writer_spec (B : BuildManifestChunksRecord → Bytes) :
    ∀ (pending : List (BuildManifestChunksRecord × Bytes))
      (remaining S : List BuildManifestChunksRecord)
      (queue : List QEntry) (fm : List String) (out : List AppendEv),
      queue.map (fun e => (e.1, e.2.1)) = remaining.map (fun r => (r.sha, r.id)) →
      (remaining.map key_of).Nodup →
      S.Nodup →
      remaining.Perm (S ++ pending.map Prod.fst) →
      (∀ p ∈ pending, p.2 = B p.1) →
      (∀ h t, remaining = h :: t → h ∉ S) →
      (run_writer queue (S.map (buf_entry B)) fm out pending).trace
        = out ++ remaining.map (append_ev B) := by
  intro pending
  induction pending with
  | nil =>
    intro remaining S queue fm out hproj hnd hSnd hperm hbytes hhead
    have hrem : remaining = [] := by
      rcases remaining with _ | ⟨h, t⟩
      · rfl
      · exfalso
        refine hhead h t rfl ?_
        have hmem := hperm.mem_iff.mp (List.mem_cons_self h t)
        simpa using hmem
    subst hrem
    rw [run_writer_pending_nil]
    simp
  | cons p rest ih =>
    intro remaining S queue fm out hproj hnd hSnd hperm hbytes hhead
    obtain ⟨r, rb⟩ := p
    have hrb : rb = B r := hbytes (r, rb) (List.mem_cons_self _ _)
    subst hrb
    simp only [List.map_cons] at hperm
    rcases remaining with _ | ⟨hd, rt⟩
    · exfalso
      have hl := hperm.length_eq
      simp at hl
      omega
    · rcases queue with _ | ⟨q0, qt⟩
      · simp at hproj
      · have hnodupR : (hd :: rt).Nodup := List.Nodup.of_map key_of hnd
        have hrmem : r ∈ hd :: rt := hperm.mem_iff.mpr (by simp)
        have hSsub : ∀ s ∈ S, s ∈ hd :: rt := fun s hs =>
          hperm.mem_iff.mpr (List.mem_append.mpr (Or.inl hs))
        have hrS : r ∉ S := by
          have hrhsnd : (S ++ r :: rest.map Prod.fst).Nodup :=
            hperm.nodup_iff.mp hnodupR
          rw [List.nodup_append] at hrhsnd
          obtain ⟨-, -, hdisj⟩ := hrhsnd
          intro hrs
          exact hdisj hrs (by simp)
        have hinj : ∀ x ∈ hd :: rt, ∀ y ∈ hd :: rt, key_of x = key_of y → x = y :=
          fun x hx y hy => nodup_map_inj hnd x hx y hy
        have hknotin : ∀ s ∈ S, key_of s ≠ chunk_key r.id r.sha := by
          intro s hs hk
          exact hrS ((hinj s (hSsub s hs) r hrmem hk) ▸ hs)
        have hbufeq : buf_insert (chunk_key r.id r.sha) r.file_path (B r)
            (S.map (buf_entry B)) = (r :: S).map (buf_entry B) := by
          unfold buf_insert
          rw [buf_remove_map_id B S _ hknotin]
          rfl
        obtain ⟨k, S2, fm2, heq, hperm2, hnd2, hmem2, hhead2⟩ :=
          drain_spec B (hd :: rt) (q0 :: qt) (r :: S) fm out hproj hnd
            (fun s hs => by
              rcases List.mem_cons.mp hs with rfl | h2
              · exact hrmem
              · exact hSsub s h2)
            (by rw [List.nodup_cons]; exact ⟨hrS, hSnd⟩)
        rw [run_writer_cons, hbufeq, heq]
        show (run_writer ((q0 :: qt).drop k) (S2.map (buf_entry B)) fm2
            (out ++ ((hd :: rt).take k).map (append_ev B)) rest).trace
          = out ++ (hd :: rt).map (append_ev B)
        have hprojNext : (((q0 :: qt).drop k).map (fun e => (e.1, e.2.1)))
            = ((hd :: rt).drop k).map (fun r2 => (r2.sha, r2.id)) := by
          rw [List.map_drop, hproj, ← List.map_drop]
        have hndNext : (((hd :: rt).drop k).map key_of).Nodup := by
          rw [List.map_drop]
          exact List.Nodup.sublist (List.drop_sublist _ _) hnd
        have hpermNext : ((hd :: rt).drop k).Perm (S2 ++ rest.map Prod.fst) := by
          have e1 : (hd :: rt).take k ++ (hd :: rt).drop k = hd :: rt :=
            List.take_append_drop k (hd :: rt)
          have hA : ((hd :: rt).take k ++ (hd :: rt).drop k).Perm
              (S ++ r :: rest.map Prod.fst) := by rw [e1]; exact hperm
          have hC : ((r :: S) ++ rest.map Prod.fst).Perm
              (((hd :: rt).take k ++ S2) ++ rest.map Prod.fst) := hperm2.append_right _
          have hD := (hA.trans List.perm_middle).trans hC
          rw [List.append_assoc] at hD
          exact (List.perm_append_left_iff _).mp hD
        have happly := ih ((hd :: rt).drop k) S2 ((q0 :: qt).drop k) fm2
          (out ++ ((hd :: rt).take k).map (append_ev B)) hprojNext hndNext hnd2 hpermNext
          (fun p hp => hbytes p (List.mem_cons_of_mem _ hp)) hhead2
        rw [happly, List.append_assoc, ← List.map_append, List.take_append_drop]

theorem build_write_queue_proj :
    ∀ (l : List BuildManifestChunksRecord) (m : List (String × Nat)) (q : List QEntry),
      build_write_queue m l = some q →
      q.map (fun e => (e.1, e.2.1)) = l.map (fun r => (r.sha, r.id)) := by
  intro l
  induction l with
  | nil =>
    intro m q h
    have h2 : q = [] := by simpa [build_write_queue] using (Option.some.inj h).symm
    subst h2
    rfl
  | cons r rest ih =>
    intro m q h
    simp only [build_write_queue] at h
    split at h
    case h_1 => cases h
    case h_2 n heq =>
      split at h
      case h_1 q2 hrec =>
        have hq : q = (r.sha, r.id, n - 1 == r.id) :: q2 := (Option.some.inj h).symm
        subst hq
        simp [ih _ _ hrec]
      case h_2 hrec => cases h

theorem trace_filter_map (B : BuildManifestChunksRecord → Bytes) (fp : String) :
    ∀ l : List BuildManifestChunksRecord,
      (((l.map (append_ev B)).filter (fun e => e.file_path == fp)).map (fun e => e.id))
        = (l.filter (fun r => r.file_path == fp)).map (fun r => r.id) := by
  intro l
  induction l with
  | nil => rfl
  | cons r rest ih =>
    simp only [List.map_cons, List.filter_cons]
    rcases h : (r.file_path == fp) with _ | _
    · simpa [append_ev, h] using ih
    · simpa [append_ev, h] using ih

/-- C1: with distinct chunk keys, the writer task appends the chunks of the
chunk manifest exactly in manifest order, for every arrival order of the
downloaded chunks: a chunk is appended exactly when it reaches the head of the
expected-order queue seeded from the manifest (out-of-order arrivals wait in
in_buffer), so for every file the appended ids follow the manifest's order,
and when the manifest lists a file's ids as 0,...,N-1, so are its appends. -/
theorem writer_appends_in_manifest_order
    (manifest : List BuildManifestChunksRecord) (m0 : List (String × Nat))
    (queue : List QEntry) (B : BuildManifestChunksRecord → Bytes)
    (arrivals : List (BuildManifestChunksRecord × Bytes))
    (hkeys : (manifest.map key_of).Nodup)
    (hq : build_write_queue m0 manifest = some queue)
    (harr : arrivals.Perm (manifest.map (fun r => (r, B r)))) :
    (run_writer queue [] [] [] arrivals).trace = manifest.map (append_ev B)
    ∧ (∀ fp, (((run_writer queue [] [] [] arrivals).trace.filter
          (fun e => e.file_path == fp)).map (fun e => e.id))
        = ((manifest.filter (fun r => r.file_path == fp)).map (fun r => r.id)))
    ∧ (∀ fp N, ((manifest.filter (fun r => r.file_path == fp)).map (fun r => r.id))
          = List.range N →
        (((run_writer queue [] [] [] arrivals).trace.filter
            (fun e => e.file_path == fp)).map (fun e => e.id)) = List.range N) := by
  have hproj := build_write_queue_proj manifest m0 queue hq
  have hfst : (arrivals.map Prod.fst).Perm manifest := by
    have h2 := harr.map Prod.fst
    simpa [Function.comp_def] using h2
  have htrace : (run_writer queue [] [] [] arrivals).trace
      = [] ++ manifest.map (append_ev B) := by
    refine run_writer_spec B arrivals manifest [] queue [] [] hproj hkeys
      List.nodup_nil ?_ ?_ ?_
    · simpa using hfst.symm
    · intro p hp
      have hp2 : p ∈ manifest.map (fun r => (r, B r)) := harr.subset hp
      obtain ⟨r, _, hpr⟩ := List.mem_map.mp hp2
      rw [← hpr]
    · intro h t _ hc
      cases hc
  have h1 : (run_writer queue [] [] [] arrivals).trace = manifest.map (append_ev B) := by
    simpa using htrace
  refine ⟨h1, ?_, ?_⟩
  · intro fp
    rw [h1, trace_filter_map]
  · intro fp N hN
    rw [h1, trace_filter_map, hN]

/-- C1 witness: one file with two chunks, delivered out of order (id 1 first),
is appended in manifest order id 0 then id 1. -/
theorem writer_appends_in_manifest_order_witness :
    (run_writer [("x_a", 0, false), ("x_b", 1, true)] [] [] []
        [(⟨"x_b", "f", 1⟩, [1]), (⟨"x_a", "f", 0⟩, [0])]).trace
      = [⟨"f", "x_a", 0, [0]⟩, ⟨"f", "x_b", 1, [1]⟩] := by
  have h := writer_appends_in_manifest_order
    [⟨"x_a", "f", 0⟩, ⟨"x_b", "f", 1⟩] [("f", 2)]
    [("x_a", 0, false), ("x_b", 1, true)]
    (fun r => [r.id])
    [(⟨"x_b", "f", 1⟩, [1]), (⟨"x_a", "f", 0⟩, [0])]
    (by decide) (by decide) (by decide)
  exact h.1.trans (by decide)

end FreeCarnival
